import Mathlib

/-!
Verification of the content-generator batch script (the active multi-key
version of the script: credential rotation, retry with backoff, bounded
concurrency queue, slug sanitizer, batch reporting).

Strings are modelled as `List Char` where character-level processing
matters, and as `String` where values are opaque.  The JavaScript regular
expression classes `\w` and `\s` are modelled exactly (ASCII word
characters; the ECMAScript WhiteSpace/LineTerminator set).  The two
Unicode table lookups of the source, `String.prototype.toLowerCase` and
`String.prototype.normalize('NFKD')`, cannot be embedded in full, so the
sanitizer is parametric in the case mapping and the per-character
decomposition: universally quantified theorems hold for every choice of
these maps — in particular for the true Unicode tables — and theorems
that need their behaviour assume it only on ASCII, where both are fully
determined (ASCII has no compatibility decompositions and only the
`A`–`Z` → `a`–`z` case mapping).  Concrete evaluations instantiate them
with `asciiToLower` and `nfkdFragment`, faithful on every character the
concrete inputs use.  Network, filesystem and SMTP effects are modelled
by explicit oracle worlds recording the result each effectful call would
produce, and the model returns the list of effects actually performed.
-/

namespace ContentGen

/-- Configuration constants of the active script. -/
def BATCH_SIZE : Nat := 20

/-- Number of concurrent workers in the queue runner. -/
def CONCURRENCY_LIMIT : Nat := 3

/-- Maximum generation attempts per prompt. -/
def MAX_RETRIES : Nat := 5

/-! ## Generation client with retry (`generateWithRetry`) -/

/-- Result of one upstream generation call: either the call throws with an
error message, or it resolves with a text payload (possibly empty). -/
inductive GenResult where
  | err (e : String) : GenResult
  | ok (text : String) : GenResult
deriving DecidableEq

/-- Outcome of one attempt inside the retry loop: the source throws
`Empty response` when `result.text` is falsy, otherwise returns the text. -/
def attemptOutcome (r : GenResult) : Except String String :=
  match r with
  | .err e => .error e
  | .ok t => if t = "" then .error "Empty response" else .ok t

/-- Whether an attempt counts as a failure (throws) in the retry loop. -/
def attemptFails (r : GenResult) : Bool :=
  match attemptOutcome r with
  | .error _ => true
  | .ok _ => false

/-- Body of the `while (attempt < MAX_RETRIES)` loop of `generateWithRetry`,
with `fuel = maxRetries - attempt` and the oracle giving each attempt's
upstream result.  Returns the final result together with the number of
upstream calls made.  The `fuel = 0` base case corresponds to the loop
falling through without a `return`, which the source only reaches when
`maxRetries = 0` (the async function then resolves with `undefined`);
it performs no upstream call. -/
def generateWithRetryGo (oracle : Nat → GenResult) : Nat → Nat → Except String String × Nat
  | _, 0 => (.error "undefined", 0)
  | attempt, fuel + 1 =>
    match attemptOutcome (oracle attempt) with
    | .ok t => (.ok t, 1)
    | .error e =>
      if fuel = 0 then
        (.error e, 1)
      else
        let rest := generateWithRetryGo oracle (attempt + 1) fuel
        (rest.1, rest.2 + 1)

/-- Model of `generateWithRetry`: run the retry loop from attempt 0.  The
returned pair is the result (success text or the propagated final error)
and the number of upstream generation calls performed.  The credential
rotation and the sleeps inside the loop do not affect the result and are
modelled separately. -/
def generateWithRetry (oracle : Nat → GenResult) (maxRetries : Nat) :
    Except String String × Nat :=
  generateWithRetryGo oracle 0 maxRetries

/-! ## Filename sanitizer (`generateSafeFilename`) -/

/-- ECMAScript `\w` character class: ASCII letters, digits and underscore,
stated on code points (`A`–`Z` is 65–90, `a`–`z` is 97–122, `0`–`9` is
48–57, underscore is 95). -/
def isWordChar (c : Char) : Bool :=
  (65 ≤ c.toNat && c.toNat ≤ 90) || (97 ≤ c.toNat && c.toNat ≤ 122) ||
    (48 ≤ c.toNat && c.toNat ≤ 57) || c.toNat == 95

/-- ECMAScript `\s` character class (WhiteSpace and LineTerminator code
points), which is also the set trimmed by `String.prototype.trim`. -/
def jsIsSpace (c : Char) : Bool :=
  (9 ≤ c.toNat && c.toNat ≤ 13) || c.toNat == 32 || c.toNat == 160 ||
    c.toNat == 5760 || (8192 ≤ c.toNat && c.toNat ≤ 8202) || c.toNat == 8232 ||
    c.toNat == 8233 || c.toNat == 8239 || c.toNat == 8287 ||
    c.toNat == 12288 || c.toNat == 65279

/-- ASCII uppercase test (code points 65–90). -/
def isAsciiUpper (c : Char) : Bool := 65 ≤ c.toNat && c.toNat ≤ 90

/-- ASCII case mapping: `A`–`Z` map to `a`–`z`, all other characters are
unchanged.  `String.prototype.toLowerCase` agrees with this on every
ASCII character; outside ASCII it applies the full Unicode case mapping,
so the sanitizer below is parametric in the true mapping and this
function is used only to instantiate concrete evaluations on characters
where the two agree. -/
def asciiToLower (c : Char) : Char :=
  if isAsciiUpper c then Char.ofNat (c.toNat + 32) else c

/-- Finite faithful fragment of the per-character NFKD compatibility
decomposition: the identity on every character with no compatibility
decomposition (which includes all of ASCII), plus the documented entry
U+1D400 MATHEMATICAL BOLD CAPITAL A → `A` used by concrete evaluations.
The sanitizer below is parametric in the true decomposition and this
fragment only instantiates it on characters where the two agree. -/
def nfkdFragment (c : Char) : List Char :=
  if c.toNat = 119808 then ['A'] else [c]

/-- Basename part of a path: the segment after the last `/`, with trailing
separators ignored, as `path.parse` computes it on posix. -/
def basenamePart (s : List Char) : List Char :=
  (((s.reverse.dropWhile (fun c => c = '/')).takeWhile (fun c => c ≠ '/'))).reverse

/-- Index of the last `.` in a list of characters, if any. -/
def lastDotIndex (b : List Char) : Option Nat :=
  match b.reverse.findIdx? (fun c => c = '.') with
  | none => none
  | some j => some (b.length - 1 - j)

/-- Model of `path.parse(p).name`: the basename with its final extension
removed.  A dot at position 0 of the basename (hidden files) and the
special basename `..` yield no extension. -/
def pathParseName (s : List Char) : List Char :=
  let b := basenamePart s
  if b = ['.', '.'] then b
  else
    match lastDotIndex b with
    | none => b
    | some 0 => b
    | some (i + 1) => b.take (i + 1)

/-- Characters kept by `.replace(/[^\w\s-]/g, '')`: word characters,
whitespace, and the hyphen (code point 45). -/
def keepChar (c : Char) : Bool := isWordChar c || jsIsSpace c || c.toNat == 45

/-- Model of `String.prototype.trim`. -/
def jsTrim (l : List Char) : List Char :=
  ((l.dropWhile jsIsSpace).reverse.dropWhile jsIsSpace).reverse

/-- Global replace of each maximal run of characters satisfying `p` by the
single character `r`, emitted at the end of the run. -/
def collapseRuns (p : Char → Bool) (r : Char) : List Char → List Char
  | [] => []
  | [c] => if p c then [r] else [c]
  | c :: d :: rest =>
    if p c then
      if p d then collapseRuns p r (d :: rest)
      else r :: collapseRuns p r (d :: rest)
    else c :: collapseRuns p r (d :: rest)

/-- Model of `.replace(/\s+/g, '-')`: each maximal run of whitespace
becomes a single hyphen. -/
def replaceSpaceRuns : List Char → List Char := collapseRuns jsIsSpace '-'

/-- Model of the replace of the regex matching runs of one or more hyphens
by a single hyphen: each maximal hyphen run collapses to one hyphen. -/
def collapseHyphenRuns : List Char → List Char := collapseRuns (fun c => c == '-') '-'

/-- Remove a single leading hyphen if present. -/
def dropLeadHyphen (l : List Char) : List Char :=
  match l with
  | [] => []
  | c :: rest => if c = '-' then rest else c :: rest

/-- Model of `.replace(/^-|-$/g, '')`: the global regex matches one hyphen
anchored at the start and one anchored at the end. -/
def stripEdgeHyphens (l : List Char) : List Char :=
  (dropLeadHyphen ((dropLeadHyphen l).reverse)).reverse

/-- The fixed output extension. -/
def mdxExt : List Char := ['.', 'm', 'd', 'x']

/-- No two adjacent characters of the list are both hyphens. -/
def NoAdjHyphens (l : List Char) : Prop :=
  l.Chain' (fun a b => a ≠ '-' ∨ b ≠ '-')

/-- Slug characters the claim allows: lowercase ASCII letters (97–122),
digits (48–57) and hyphen (45). -/
def claimedSlugChar (c : Char) : Bool :=
  (97 ≤ c.toNat && c.toNat ≤ 122) || (48 ≤ c.toNat && c.toNat ≤ 57) ||
    c.toNat == 45

/-- Output shape asserted by the claim: the name is a slug of
`claimedSlugChar` characters followed by `.mdx`, and the slug neither
starts nor ends with a hyphen. -/
def claimedShape (l : List Char) : Bool :=
  (l.drop (l.length - 4) == mdxExt) &&
    ((l.take (l.length - 4)).all claimedSlugChar) &&
    ((l.take (l.length - 4)).head? != some '-') &&
    ((l.take (l.length - 4)).getLast? != some '-')

/-- Lowercase slug characters: lowercase ASCII letters, digits,
underscore (95) and hyphen.  Slugs free of uppercase letters are fixed
points of the sanitizer's slug stage. -/
def slugCharAmended (c : Char) : Bool :=
  (97 ≤ c.toNat && c.toNat ≤ 122) || (48 ≤ c.toNat && c.toNat ≤ 57) ||
    c.toNat == 95 || c.toNat == 45

/-- Slug characters the code actually produces: ASCII letters of either
case (normalization runs after lowercasing and may reintroduce uppercase
letters, which `\w` keeps), digits, underscore and hyphen. -/
def slugCharWide (c : Char) : Bool :=
  (65 ≤ c.toNat && c.toNat ≤ 90) || (97 ≤ c.toNat && c.toNat ≤ 122) ||
    (48 ≤ c.toNat && c.toNat ≤ 57) || c.toNat == 95 || c.toNat == 45

/-- Amended output shape: the slug may also contain underscores (kept by
the `\w` class of the removal step) and uppercase ASCII letters
(reintroduced by NFKD after the lowercasing step). -/
def amendedShape (l : List Char) : Bool :=
  (l.drop (l.length - 4) == mdxExt) &&
    ((l.take (l.length - 4)).all slugCharWide) &&
    ((l.take (l.length - 4)).head? != some '-') &&
    ((l.take (l.length - 4)).getLast? != some '-')

/-- Removal of the `.mdx` extension the sanitizer appends. -/
def stripMdxSuffix (l : List Char) : List Char :=
  if l.drop (l.length - 4) = mdxExt then l.take (l.length - 4) else l

/-- Stage of `generateSafeFilename` before hyphen runs are collapsed,
parametric in the case mapping `lower` of `toLowerCase` and the
per-character decomposition `nf` of `normalize('NFKD')`: strip the
extension, lowercase, normalize, drop characters outside the kept
classes, trim, and turn whitespace runs into hyphens. -/
def preHyphenStageWith (lower : Char → Char) (nf : Char → List Char)
    (originalFilename : List Char) : List Char :=
  replaceSpaceRuns (jsTrim
    ((((pathParseName originalFilename).map lower).flatMap nf).filter keepChar))

/-- Slug part of `generateSafeFilename`, parametric in the Unicode maps:
the whole chain before the extension is appended. -/
def slugCoreWith (lower : Char → Char) (nf : Char → List Char)
    (originalFilename : List Char) : List Char :=
  stripEdgeHyphens (collapseHyphenRuns (preHyphenStageWith lower nf originalFilename))

/-- Model of `generateSafeFilename`, parametric in the Unicode maps:
strip the extension, lowercase, normalize, remove characters outside
`\w`, `\s` and `-`, trim, turn whitespace runs into hyphens, collapse
hyphen runs, strip edge hyphens, and append `.mdx`. -/
def generateSafeFilenameWith (lower : Char → Char) (nf : Char → List Char)
    (originalFilename : List Char) : List Char :=
  slugCoreWith lower nf originalFilename ++ mdxExt

/-- The source's `generateSafeFilename`, instantiated with the faithful
fragment of the Unicode tables used by concrete evaluations. -/
def generateSafeFilename (originalFilename : List Char) : List Char :=
  generateSafeFilenameWith asciiToLower nfkdFragment originalFilename

/-! ## Credential rotator (`apiKeys` and `getNextGemini`) -/

/-- Insertion of a string into a sorted list, used to model the default
lexicographic `Array.prototype.sort`. -/
def insertSorted (x : String) : List String → List String
  | [] => [x]
  | y :: ys => if x < y then x :: y :: ys else y :: insertSorted x ys

/-- Model of `Array.prototype.sort()` on strings (default lexicographic
comparator) by insertion sort. -/
def sortStrings : List String → List String
  | [] => []
  | x :: xs => insertSorted x (sortStrings xs)

/-- Model of the `apiKeys` construction: take the environment's keys, keep
those starting with `GEMINI_API_KEY`, sort them, look each up, and keep
the truthy (non-empty) values.  The environment is an association list in
enumeration order. -/
def buildApiKeys (env : List (String × String)) : List String :=
  ((sortStrings ((env.map Prod.fst).filter
      (fun k => String.startsWith k "GEMINI_API_KEY"))).map
    (fun k => (Option.map Prod.snd (env.find? (fun p => p.fst = k))).getD ""))
    |>.filter (fun s => s ≠ "")

/-- Model of `getNextGemini`: read the credential at the cursor, advance
the cursor by one modulo the credential count, and return both.  The
source wraps the returned key in a fresh client object; the model returns
the key itself. -/
def getNextGemini (keys : List String) (keyIndex : Nat) : String × Nat :=
  (keys.getD keyIndex "", (keyIndex + 1) % keys.length)

/-- Cursor value after `n` calls to the rotator, starting from the initial
`keyIndex = 0`. -/
def rotatorState (keys : List String) : Nat → Nat
  | 0 => 0
  | n + 1 => (getNextGemini keys (rotatorState keys n)).2

/-! ## Per-item processing (`processFile`) -/

/-- File record fetched from the external API, with the fields this system
reads. -/
structure WorkItem where
  id : String
  originalFilename : List Char
  status : String
  secureUrl : String
deriving DecidableEq

/-- Per-item result value returned by `processFile`. -/
structure Outcome where
  success : Bool
  name : List Char
  error : Option String
deriving DecidableEq

/-- Oracle world for one item: the result each effectful step would
produce if reached (prompt fetch, the per-attempt generation results,
the filesystem write, the upstream status update). -/
structure ItemWorld where
  promptFetch : Except String String
  gen : Nat → GenResult
  writeResult : Except String Unit
  putResult : Except String Unit

/-- Effects actually performed while processing one item: filenames
written to the output directory, item ids whose status was updated
upstream, and the number of upstream generation calls. -/
structure ItemEffects where
  written : List (List Char)
  statusUpdates : List String
  generationCalls : Nat
deriving DecidableEq

/-- Model of `processFile`: fetch the prompt, generate with retry,
sanitize the filename, write the file, report the status upstream; any
step throwing is caught and recorded as a failure `Outcome` named by the
raw `originalFilename`.  The write precedes the status update, so a
failing status update leaves the written file in place. -/
def processFile (file : WorkItem) (w : ItemWorld) : Outcome × ItemEffects :=
  match w.promptFetch with
  | .error e =>
    (⟨false, file.originalFilename, some e⟩, ⟨[], [], 0⟩)
  | .ok _ =>
    let gen := generateWithRetry w.gen MAX_RETRIES
    match gen.1 with
    | .error e =>
      (⟨false, file.originalFilename, some e⟩, ⟨[], [], gen.2⟩)
    | .ok _ =>
      let safeFilename := generateSafeFilename file.originalFilename
      match w.writeResult with
      | .error e =>
        (⟨false, file.originalFilename, some e⟩, ⟨[], [], gen.2⟩)
      | .ok _ =>
        match w.putResult with
        | .error e =>
          (⟨false, file.originalFilename, some e⟩, ⟨[safeFilename], [], gen.2⟩)
        | .ok _ =>
          (⟨true, safeFilename, none⟩, ⟨[safeFilename], [file.id], gen.2⟩)

/-! ## Bounded-concurrency queue (`runQueue`), small-step model

The queue runner shares a claim cursor `index` among `CONCURRENCY_LIMIT`
workers.  Each worker loops: atomically check `index` against the item
count and claim the next index (the check and the post-increment happen
in one synchronous segment of the event loop), await the item's
processing, then push the result.  The model makes the claim, the
completion-and-push, and worker termination separate atomic steps, which
only weakens the atomicity the event loop provides; results are recorded
by the claimed item index. -/

/-- Status of one worker in the queue model. -/
inductive WStatus where
  | ready : WStatus
  | busy (i : Nat) : WStatus
  | done : WStatus
deriving DecidableEq

/-- State of the queue: claim cursor, results pushed so far (as claimed
item indices), and the workers. -/
structure QState where
  index : Nat
  results : List Nat
  workers : List WStatus
deriving DecidableEq

/-- One atomic step of the queue with `N` items: a ready worker claims the
next index when one remains, a ready worker terminates when the cursor
has reached the end, or a busy worker finishes its item and pushes the
result. -/
inductive QStep (N : Nat) : QState → QState → Prop where
  | claim (s : QState) (w : Nat) (hw : s.workers[w]? = some .ready)
      (hidx : s.index < N) :
      QStep N s ⟨s.index + 1, s.results, s.workers.set w (.busy s.index)⟩
  | finish (s : QState) (w : Nat) (hw : s.workers[w]? = some .ready)
      (hidx : N ≤ s.index) :
      QStep N s ⟨s.index, s.results, s.workers.set w .done⟩
  | complete (s : QState) (w i : Nat) (hw : s.workers[w]? = some (.busy i)) :
      QStep N s ⟨s.index, s.results ++ [i], s.workers.set w .ready⟩

/-- Initial queue state for `W` workers. -/
def qInit (W : Nat) : QState := ⟨0, [], List.replicate W .ready⟩

/-- Item index a busy worker currently holds. -/
def busyIndex : WStatus → Option Nat
  | .busy i => some i
  | _ => none

/-- Multiset of item indices currently held by busy workers. -/
def busyMultiset (ws : List WStatus) : Multiset Nat :=
  (ws.filterMap busyIndex : List Nat)

/-- Multiset contribution of one worker's optional held index. -/
def optIndexMS : Option Nat → Multiset Nat
  | none => 0
  | some i => {i}

/-- Invariant of the queue with `N` items and `W` workers: the claim
cursor never passes `N`; the pushed results together with the indices
currently held by busy workers are exactly the indices claimed so far,
each exactly once; a terminated worker implies the cursor has reached the
end; and the worker count stays `W`. -/
def QInv (N W : Nat) (s : QState) : Prop :=
  s.index ≤ N ∧
    ((s.results : Multiset Nat) + busyMultiset s.workers
      = (List.range s.index : Multiset Nat)) ∧
    ((∃ st ∈ s.workers, st = WStatus.done) → N ≤ s.index) ∧
    s.workers.length = W

/-! ## Batch run (`run`) -/

/-- Deterministic model of `runQueue` used by the batch-level model: each
item is processed against its own oracle world; the order in which
workers interleave only permutes the result list, which the batch-level
claims do not depend on. -/
def runQueueModel (files : List WorkItem) (iw : Nat → ItemWorld) :
    List (Outcome × ItemEffects) :=
  files.enum.map (fun p => processFile p.2 (iw p.1))

/-- Oracle world for one batch run: the initial fetch result, the worlds
of the individual items, whether `EMAIL_HOST` is configured, and the
result `transporter.sendMail` would produce. -/
structure RunWorld where
  fetchBatch : Except String (List WorkItem)
  itemWorlds : Nat → ItemWorld
  emailHost : Bool
  emailSend : Except String Unit

/-- Observable result of one batch run: process exit code, collected
outcomes, aggregate effects, number of initial batch fetches and of
report emails delivered. -/
structure RunResult where
  exitCode : Nat
  outcomes : List Outcome
  written : List (List Char)
  statusUpdates : List String
  generationCalls : Nat
  fetches : Nat
  emailsSent : Nat
deriving DecidableEq

/-- Model of `sendEmail`: a missing `EMAIL_HOST` makes it a no-op; with a
host configured it performs the send, whose failure propagates to the
caller (the active script has no try/catch around `sendMail`). -/
def sendEmailModel (rw : RunWorld) : Except String Unit :=
  if rw.emailHost then rw.emailSend else .ok ()

/-- Model of `run`: fetch the batch, keep the first `BATCH_SIZE` pending
items, return silently when none, otherwise run the queue, send the batch
report email (`sendBatchEmail` delegates to `sendEmail`), and exit 0; any
error escaping to the top-level catch — including a report-email failure —
yields a best-effort failure email and exit code 1. -/
def runModel (rw : RunWorld) : RunResult :=
  match rw.fetchBatch with
  | .error _ =>
    ⟨1, [], [], [], 0, 1, 0⟩
  | .ok allFiles =>
    let pendingFiles := (allFiles.filter (fun f => f.status = "Pending")).take BATCH_SIZE
    if pendingFiles.isEmpty then
      ⟨0, [], [], [], 0, 1, 0⟩
    else
      let rs := runQueueModel pendingFiles rw.itemWorlds
      let outcomes := rs.map Prod.fst
      let written := rs.flatMap (fun r => r.2.written)
      let statusUpdates := rs.flatMap (fun r => r.2.statusUpdates)
      let generationCalls := (rs.map (fun r => r.2.generationCalls)).sum
      match sendEmailModel rw with
      | .ok _ =>
        ⟨0, outcomes, written, statusUpdates, generationCalls, 1,
          if rw.emailHost then 1 else 0⟩
      | .error _ =>
        ⟨1, outcomes, written, statusUpdates, generationCalls, 1, 0⟩

/-- Model of the whole process: the `apiKeys` construction runs at module
load and throws before `run` is ever invoked when no credential survives
the filter, so the process exits nonzero having performed no HTTP call
and processed no item. -/
def mainModel (env : List (String × String)) (rw : RunWorld) : RunResult :=
  if (buildApiKeys env).length = 0 then
    ⟨1, [], [], [], 0, 0, 0⟩
  else
    runModel rw

/-! ## Sanitizer: structural lemmas -/

/-- Members of a run-collapsed list are the replacement character or
members of the input not satisfying `p`. -/
theorem mem_collapseRuns (p : Char → Bool) (r : Char) (l : List Char) :
    ∀ c ∈ collapseRuns p r l, c = r ∨ (c ∈ l ∧ p c = false) := by
  induction l using collapseRuns.induct p r with
  | case1 => intro c hc; simp [collapseRuns] at hc
  | case2 c0 hp =>
    intro c hc
    simp [collapseRuns, hp] at hc
    exact Or.inl hc
  | case3 c0 hp =>
    intro c hc
    simp [collapseRuns, Bool.of_not_eq_true hp] at hc
    exact Or.inr ⟨by simp [hc], by rw [hc]; exact Bool.of_not_eq_true hp⟩
  | case4 c0 d rest hpc hpd ih =>
    intro c hc
    simp only [collapseRuns, hpc, hpd, if_pos] at hc
    rcases ih c hc with h | ⟨hmem, hps⟩
    · exact Or.inl h
    · exact Or.inr ⟨List.mem_cons_of_mem _ hmem, hps⟩
  | case5 c0 d rest hpc hpd ih =>
    intro c hc
    simp only [collapseRuns, hpc, Bool.of_not_eq_true hpd, if_pos, if_neg] at hc
    rcases List.mem_cons.mp hc with h | h
    · exact Or.inl h
    · rcases ih c h with h' | ⟨hmem, hps⟩
      · exact Or.inl h'
      · exact Or.inr ⟨List.mem_cons_of_mem _ hmem, hps⟩
  | case6 c0 d rest hpc ih =>
    intro c hc
    simp only [collapseRuns, if_neg hpc] at hc
    rcases List.mem_cons.mp hc with h | h
    · subst h
      exact Or.inr ⟨List.mem_cons_self _ _, Bool.of_not_eq_true hpc⟩
    · rcases ih c h with h' | ⟨hmem, hps⟩
      · exact Or.inl h'
      · exact Or.inr ⟨List.mem_cons_of_mem _ hmem, hps⟩

/-- Run collapsing keeps the head when the head does not satisfy `p`. -/
theorem head?_collapseRuns (p : Char → Bool) (r : Char) (d : Char)
    (rest : List Char) (hd : p d = false) :
    (collapseRuns p r (d :: rest)).head? = some d := by
  cases rest with
  | nil => simp [collapseRuns, hd]
  | cons e t => simp [collapseRuns, hd]

/-- No two adjacent characters of a run-collapsed list both satisfy `p`. -/
theorem chain'_collapseRuns (p : Char → Bool) (r : Char) (l : List Char) :
    (collapseRuns p r l).Chain' (fun a b => p a = false ∨ p b = false) := by
  induction l using collapseRuns.induct p r with
  | case1 => simp [collapseRuns]
  | case2 c0 hp => simp [collapseRuns, hp]
  | case3 c0 hp => simp [collapseRuns, Bool.of_not_eq_true hp]
  | case4 c0 d rest hpc hpd ih =>
    simpa only [collapseRuns, hpc, hpd, if_pos] using ih
  | case5 c0 d rest hpc hpd ih =>
    have hd : p d = false := Bool.of_not_eq_true hpd
    simp only [collapseRuns, hpc, hd, if_pos, Bool.false_eq_true, if_neg,
      not_false_eq_true]
    rw [List.chain'_cons']
    refine ⟨?_, ih⟩
    intro y hy
    rw [head?_collapseRuns p r d rest hd] at hy
    simp at hy
    subst hy
    exact Or.inr hd
  | case6 c0 d rest hpc ih =>
    have hc : p c0 = false := Bool.of_not_eq_true hpc
    simp only [collapseRuns, hc, Bool.false_eq_true, if_neg, not_false_eq_true]
    rw [List.chain'_cons']
    exact ⟨fun y _ => Or.inl hc, ih⟩

/-- Run collapsing is the identity when no two adjacent characters satisfy
`p` and every character satisfying `p` equals the replacement. -/
theorem collapseRuns_eq_self (p : Char → Bool) (r : Char) :
    ∀ (l : List Char), l.Chain' (fun a b => p a = false ∨ p b = false) →
      (∀ c ∈ l, p c = true → c = r) → collapseRuns p r l = l := by
  intro l
  induction l using collapseRuns.induct p r with
  | case1 => intro _ _; rfl
  | case2 c0 hp =>
    intro _ hall
    simp only [collapseRuns, hp, if_pos]
    rw [hall c0 (List.mem_singleton_self c0) hp]
  | case3 c0 hp =>
    intro _ _
    simp [collapseRuns, Bool.of_not_eq_true hp]
  | case4 c0 d rest hpc hpd ih =>
    intro hchain _
    exfalso
    rcases (List.chain'_cons'.mp hchain).1 d (by simp) with h | h
    · rw [hpc] at h; cases h
    · rw [hpd] at h; cases h
  | case5 c0 d rest hpc hpd ih =>
    intro hchain hall
    have hd : p d = false := Bool.of_not_eq_true hpd
    simp only [collapseRuns, hpc, hd, Bool.false_eq_true, if_pos, if_neg,
      not_false_eq_true]
    rw [ih (List.chain'_cons'.mp hchain).2
      (fun c hc hpcc => hall c (List.mem_cons_of_mem _ hc) hpcc)]
    rw [hall c0 (List.mem_cons_self _ _) hpc]
  | case6 c0 d rest hpc ih =>
    intro hchain hall
    simp only [collapseRuns, Bool.of_not_eq_true hpc, Bool.false_eq_true,
      if_neg, not_false_eq_true, List.cons.injEq, true_and]
    exact ih (List.chain'_cons'.mp hchain).2
      (fun c hc hpcc => hall c (List.mem_cons_of_mem _ hc) hpcc)

/-- Members survive removal of a leading hyphen. -/
theorem mem_dropLeadHyphen (l : List Char) : ∀ c ∈ dropLeadHyphen l, c ∈ l := by
  cases l with
  | nil => intro c hc; simp [dropLeadHyphen] at hc
  | cons a rest =>
    intro c hc
    by_cases ha : a = '-'
    · exact List.mem_cons_of_mem _ (by simpa [dropLeadHyphen, ha] using hc)
    · simpa [dropLeadHyphen, ha] using hc

/-- Hyphen-run collapsing leaves no two adjacent hyphens. -/
theorem noAdjHyphens_collapseHyphenRuns (l : List Char) :
    NoAdjHyphens (collapseHyphenRuns l) := by
  refine List.Chain'.imp ?_ (chain'_collapseRuns (fun c => c == '-') '-' l)
  intro a b h
  rcases h with h | h
  · exact Or.inl (by simpa using h)
  · exact Or.inr (by simpa using h)

/-- With no adjacent hyphens, removing a leading hyphen leaves a list not
starting with a hyphen. -/
theorem head?_dropLeadHyphen (l : List Char) (h : NoAdjHyphens l) :
    (dropLeadHyphen l).head? ≠ some '-' := by
  cases l with
  | nil => simp [dropLeadHyphen]
  | cons a rest =>
    by_cases ha : a = '-'
    · subst ha
      simp only [dropLeadHyphen, if_pos]
      cases rest with
      | nil => simp
      | cons b t =>
        have hb := (List.chain'_cons'.mp h).1 b (by simp)
        rcases hb with hb | hb
        · exact absurd rfl hb
        · simpa using hb
    · simp [dropLeadHyphen, ha]

/-- Removing a leading hyphen preserves any chain property. -/
theorem chain'_dropLeadHyphen (R : Char → Char → Prop) (l : List Char)
    (h : l.Chain' R) : (dropLeadHyphen l).Chain' R := by
  cases l with
  | nil => simp [dropLeadHyphen]
  | cons a rest =>
    by_cases ha : a = '-'
    · simpa [dropLeadHyphen, ha] using (List.chain'_cons'.mp h).2
    · simpa [dropLeadHyphen, ha] using h

/-- Removing a leading hyphen preserves the last element unless the result
is empty. -/
theorem getLast?_dropLeadHyphen (l : List Char) :
    (dropLeadHyphen l).getLast? = l.getLast? ∨ dropLeadHyphen l = [] := by
  cases l with
  | nil => exact Or.inr rfl
  | cons a rest =>
    by_cases ha : a = '-'
    · cases rest with
      | nil => exact Or.inr (by simp [dropLeadHyphen, ha])
      | cons b t =>
        left
        simp only [dropLeadHyphen, ha, if_pos]
        exact (List.getLast?_cons_cons ..).symm
    · exact Or.inl (by simp [dropLeadHyphen, ha])

/-- Members survive edge-hyphen stripping. -/
theorem mem_stripEdgeHyphens (l : List Char) :
    ∀ c ∈ stripEdgeHyphens l, c ∈ l := by
  intro c hc
  unfold stripEdgeHyphens at hc
  rw [List.mem_reverse] at hc
  have h1 := mem_dropLeadHyphen _ _ hc
  rw [List.mem_reverse] at h1
  exact mem_dropLeadHyphen _ _ h1

/-- Reversal preserves the no-adjacent-hyphens property. -/
theorem noAdjHyphens_reverse (l : List Char) (h : NoAdjHyphens l) :
    NoAdjHyphens l.reverse := by
  rw [NoAdjHyphens, List.chain'_reverse]
  exact List.Chain'.imp (fun a b hab => hab.symm) h

/-- Edge-hyphen stripping preserves the no-adjacent-hyphens property. -/
theorem noAdjHyphens_stripEdgeHyphens (l : List Char) (h : NoAdjHyphens l) :
    NoAdjHyphens (stripEdgeHyphens l) := by
  unfold stripEdgeHyphens
  exact noAdjHyphens_reverse _
    (chain'_dropLeadHyphen _ _ (noAdjHyphens_reverse _ (chain'_dropLeadHyphen _ _ h)))

/-- With no adjacent hyphens, the stripped slug neither starts nor ends
with a hyphen. -/
theorem stripEdgeHyphens_no_edge (l : List Char) (h : NoAdjHyphens l) :
    (stripEdgeHyphens l).head? ≠ some '-' ∧
      (stripEdgeHyphens l).getLast? ≠ some '-' := by
  have hA : NoAdjHyphens (dropLeadHyphen l) := chain'_dropLeadHyphen _ _ h
  have hB : NoAdjHyphens (dropLeadHyphen l).reverse := noAdjHyphens_reverse _ hA
  constructor
  · unfold stripEdgeHyphens
    rw [List.head?_reverse]
    rcases getLast?_dropLeadHyphen ((dropLeadHyphen l).reverse) with heq | heq
    · rw [heq, List.getLast?_reverse]
      exact head?_dropLeadHyphen l h
    · rw [heq]
      simp
  · unfold stripEdgeHyphens
    rw [List.getLast?_reverse]
    exact head?_dropLeadHyphen _ hB

/-- Removing a leading hyphen is the identity when the list does not start
with a hyphen. -/
theorem dropLeadHyphen_eq_self (l : List Char) (h : l.head? ≠ some '-') :
    dropLeadHyphen l = l := by
  cases l with
  | nil => rfl
  | cons a rest =>
    have ha : a ≠ '-' := by
      intro hcontra
      exact h (by simp [hcontra])
    simp [dropLeadHyphen, ha]

/-- Edge-hyphen stripping is the identity when the list has no edge
hyphen. -/
theorem stripEdgeHyphens_eq_self (l : List Char) (h1 : l.head? ≠ some '-')
    (h2 : l.getLast? ≠ some '-') : stripEdgeHyphens l = l := by
  unfold stripEdgeHyphens
  rw [dropLeadHyphen_eq_self l h1]
  rw [dropLeadHyphen_eq_self l.reverse (by rwa [List.head?_reverse])]
  exact List.reverse_reverse l

/-! ## Sanitizer: character-class lemmas -/

/-- Lowercasing an ASCII uppercase letter adds 32 to its code point. -/
theorem asciiToLower_toNat (c : Char) (h : isAsciiUpper c = true) :
    (asciiToLower c).toNat = c.toNat + 32 := by
  have hn : 65 ≤ c.toNat ∧ c.toNat ≤ 90 := by
    simpa [isAsciiUpper, Bool.and_eq_true, decide_eq_true_eq] using h
  have hv : Nat.isValidChar (c.toNat + 32) := by left; omega
  simp only [asciiToLower, h, if_true]
  simp only [Char.ofNat, Char.toNat] at *
  rw [dif_pos hv]
  simp [Char.ofNatAux, UInt32.toNat, UInt32.ofNatCore, BitVec.ofNatLt]

/-- Produced slug characters are ASCII. -/
theorem slugCharWide_ascii (c : Char) (h : slugCharWide c = true) :
    c.toNat ≤ 127 := by
  simp only [slugCharWide, Bool.or_eq_true, Bool.and_eq_true, decide_eq_true_eq,
    beq_iff_eq] at h
  omega

/-- Lowercase slug characters are ASCII. -/
theorem slugCharAmended_ascii (c : Char) (h : slugCharAmended c = true) :
    c.toNat ≤ 127 := by
  simp only [slugCharAmended, Bool.or_eq_true, Bool.and_eq_true,
    decide_eq_true_eq, beq_iff_eq] at h
  omega

/-- The ASCII case mapping sends produced slug characters to lowercase
slug characters. -/
theorem asciiToLower_amended_of_wide (c : Char) (h : slugCharWide c = true) :
    slugCharAmended (asciiToLower c) = true := by
  by_cases hu : isAsciiUpper c = true
  · have hn : 65 ≤ c.toNat ∧ c.toNat ≤ 90 := by
      simpa [isAsciiUpper, Bool.and_eq_true, decide_eq_true_eq] using hu
    simp only [slugCharAmended, asciiToLower_toNat c hu, Bool.or_eq_true,
      Bool.and_eq_true, decide_eq_true_eq, beq_iff_eq]
    omega
  · rw [asciiToLower, if_neg (by simpa using hu)]
    simp only [slugCharWide, slugCharAmended, Bool.or_eq_true, Bool.and_eq_true,
      decide_eq_true_eq, beq_iff_eq] at *
    have hu2 : ¬(65 ≤ c.toNat ∧ c.toNat ≤ 90) := by
      intro hcontra
      exact hu (by simp [isAsciiUpper, hcontra.1, hcontra.2])
    omega

/-- A kept, non-whitespace character is a produced slug character. -/
theorem slugCharWide_of_kept (c : Char) (hk : keepChar c = true)
    (hs : jsIsSpace c = false) : slugCharWide c = true := by
  simp only [keepChar, isWordChar, jsIsSpace, slugCharWide, Bool.or_eq_true,
    Bool.and_eq_true, decide_eq_true_eq, beq_iff_eq, Bool.or_eq_false_iff,
    Bool.and_eq_false_iff, decide_eq_false_iff_not, beq_eq_false_iff_ne,
    ne_eq] at *
  omega

/-- Lowercase slug characters are not whitespace. -/
theorem slugCharAmended_not_space (c : Char) (h : slugCharAmended c = true) :
    jsIsSpace c = false := by
  simp only [slugCharAmended, jsIsSpace, Bool.or_eq_true, Bool.and_eq_true,
    decide_eq_true_eq, beq_iff_eq, Bool.or_eq_false_iff, Bool.and_eq_false_iff,
    decide_eq_false_iff_not, beq_eq_false_iff_ne, ne_eq] at *
  omega

/-- Lowercase slug characters are kept by the character filter. -/
theorem keepChar_of_slugCharAmended (c : Char) (h : slugCharAmended c = true) :
    keepChar c = true := by
  simp only [slugCharAmended, keepChar, isWordChar, jsIsSpace, Bool.or_eq_true,
    Bool.and_eq_true, decide_eq_true_eq, beq_iff_eq] at *
  omega

/-- Lowercase slug characters are unchanged by the ASCII case mapping. -/
theorem asciiToLower_slugCharAmended (c : Char) (h : slugCharAmended c = true) :
    asciiToLower c = c := by
  have hu : isAsciiUpper c = false := by
    simp only [slugCharAmended, isAsciiUpper, Bool.or_eq_true, Bool.and_eq_true,
      decide_eq_true_eq, beq_iff_eq] at *
    simp only [Bool.and_eq_false_iff, decide_eq_false_iff_not]
    omega
  rw [asciiToLower, if_neg (by simp [hu])]

/-- Lowercase slug characters are neither the path separator nor the
dot. -/
theorem slugCharAmended_not_sep (c : Char) (h : slugCharAmended c = true) :
    c ≠ '/' ∧ c ≠ '.' := by
  constructor
  · intro hc; subst hc; revert h; decide
  · intro hc; subst hc; revert h; decide

/-- Produced slug characters are neither the path separator nor the
dot. -/
theorem slugCharWide_not_sep (c : Char) (h : slugCharWide c = true) :
    c ≠ '/' ∧ c ≠ '.' := by
  constructor
  · intro hc; subst hc; revert h; decide
  · intro hc; subst hc; revert h; decide

/-- The ASCII case mapping neither creates nor destroys hyphens. -/
theorem asciiToLower_hyphen_iff (c : Char) :
    asciiToLower c = '-' ↔ c = '-' := by
  constructor
  · intro h
    by_cases hu : isAsciiUpper c = true
    · exfalso
      have hn : 65 ≤ c.toNat ∧ c.toNat ≤ 90 := by
        simpa [isAsciiUpper, Bool.and_eq_true, decide_eq_true_eq] using hu
      have h2 := congrArg Char.toNat h
      rw [asciiToLower_toNat c hu] at h2
      have h3 : ('-').toNat = 45 := by decide
      omega
    · rwa [asciiToLower, if_neg (by simpa using hu)] at h
  · intro h
    subst h
    decide

/-! ## Sanitizer: pipeline lemmas -/

/-- Normalization leaves a list alone when it is pointwise trivial on its
characters. -/
theorem flatMap_eq_self_of (nf : Char → List Char) (x : List Char)
    (h : ∀ c ∈ x, nf c = [c]) : x.flatMap nf = x := by
  induction x with
  | nil => rfl
  | cons a rest ih =>
    rw [List.flatMap_cons, h a (List.mem_cons_self _ _),
      ih (fun c hc => h c (List.mem_cons_of_mem _ hc))]
    rfl

/-- Trimming only removes characters. -/
theorem mem_jsTrim (l : List Char) : ∀ c ∈ jsTrim l, c ∈ l := by
  intro c hc
  unfold jsTrim at hc
  rw [List.mem_reverse] at hc
  have h1 := (List.dropWhile_sublist jsIsSpace).subset hc
  rw [List.mem_reverse] at h1
  exact (List.dropWhile_sublist jsIsSpace).subset h1

/-- Whatever the Unicode case mapping and decomposition do, every
character of the produced slug survives the `\w`, `\s`, `-` filter and
the whitespace replacement, so it is a word character or a hyphen. -/
theorem mem_slugCoreWith (lower : Char → Char) (nf : Char → List Char)
    (s : List Char) :
    ∀ c ∈ slugCoreWith lower nf s, slugCharWide c = true := by
  intro c hc
  unfold slugCoreWith at hc
  have h1 := mem_stripEdgeHyphens _ _ hc
  rcases mem_collapseRuns _ _ _ _ h1 with h2 | ⟨h2, _⟩
  · subst h2; decide
  · rcases mem_collapseRuns _ _ _ _ h2 with h3 | ⟨h3, hs⟩
    · subst h3; decide
    · have h4 := mem_jsTrim _ _ h3
      rw [List.mem_filter] at h4
      exact slugCharWide_of_kept c h4.2 hs

set_option maxHeartbeats 1600000 in
/-- Whatever the Unicode maps do, the produced slug has no two adjacent
hyphens, and neither starts nor ends with a hyphen. -/
theorem slugCoreWith_no_hyphen_runs (lower : Char → Char)
    (nf : Char → List Char) (s : List Char) :
    NoAdjHyphens (slugCoreWith lower nf s) ∧
      (slugCoreWith lower nf s).head? ≠ some '-' ∧
      (slugCoreWith lower nf s).getLast? ≠ some '-' := by
  have hchain : NoAdjHyphens (collapseHyphenRuns (preHyphenStageWith lower nf s)) :=
    noAdjHyphens_collapseHyphenRuns (preHyphenStageWith lower nf s)
  exact ⟨noAdjHyphens_stripEdgeHyphens _ hchain,
    (stripEdgeHyphens_no_edge _ hchain).1, (stripEdgeHyphens_no_edge _ hchain).2⟩

/-! ## Sanitizer: identity and lowering lemmas for produced slugs -/

/-- Dropping while a predicate fails everywhere drops nothing. -/
theorem dropWhile_eq_self_of (p : Char → Bool) (l : List Char)
    (h : ∀ c ∈ l, p c = false) : l.dropWhile p = l := by
  cases l with
  | nil => rfl
  | cons a rest => rw [List.dropWhile_cons, h a (List.mem_cons_self _ _)]; simp

/-- Lists whose characters all fail `p` satisfy the run chain condition. -/
theorem chain'_of_all_false (p : Char → Bool) (l : List Char)
    (h : ∀ c ∈ l, p c = false) :
    l.Chain' (fun a b => p a = false ∨ p b = false) := by
  induction l with
  | nil => exact List.chain'_nil
  | cons a rest ih =>
    rw [List.chain'_cons']
    exact ⟨fun y _ => Or.inl (h a (List.mem_cons_self _ _)),
      ih (fun c hc => h c (List.mem_cons_of_mem _ hc))⟩

/-- Parsing leaves a name alone when it has no separator and no dot. -/
theorem pathParseName_eq_self (x : List Char) (hs : ∀ c ∈ x, c ≠ '/')
    (hd : ∀ c ∈ x, c ≠ '.') : pathParseName x = x := by
  have hb : basenamePart x = x := by
    unfold basenamePart
    rw [dropWhile_eq_self_of _ _ (by
      intro c hc
      rw [List.mem_reverse] at hc
      simp [hs c hc])]
    rw [List.takeWhile_eq_self_iff.mpr (by
      intro c hc
      rw [List.mem_reverse] at hc
      simp [hs c hc])]
    exact List.reverse_reverse x
  have hdot : lastDotIndex x = none := by
    unfold lastDotIndex
    rw [List.findIdx?_eq_none_iff.mpr (by
      intro c hc
      rw [List.mem_reverse] at hc
      simp [hd c hc])]
  have hne : x ≠ ['.', '.'] := by
    intro hcontra
    exact hd '.' (by rw [hcontra]; simp) rfl
  unfold pathParseName
  rw [hb, if_neg hne, hdot]

/-- An ASCII-faithful case mapping leaves an already-lowercase slug
alone. -/
theorem map_lower_amended_eq_self (lower : Char → Char)
    (hlower : ∀ c : Char, c.toNat ≤ 127 → lower c = asciiToLower c)
    (x : List Char) (h : ∀ c ∈ x, slugCharAmended c = true) :
    x.map lower = x := by
  have h1 : x.map lower = x.map asciiToLower :=
    List.map_congr_left (fun c hc => hlower c (slugCharAmended_ascii c (h c hc)))
  rw [h1]
  rw [List.map_congr_left (fun c hc => asciiToLower_slugCharAmended c (h c hc))]
  exact List.map_id' x

/-- Trimming leaves a whitespace-free list alone. -/
theorem jsTrim_eq_self (x : List Char) (h : ∀ c ∈ x, jsIsSpace c = false) :
    jsTrim x = x := by
  unfold jsTrim
  rw [dropWhile_eq_self_of _ _ h]
  rw [dropWhile_eq_self_of _ _ (by
    intro c hc
    rw [List.mem_reverse] at hc
    exact h c hc)]
  exact List.reverse_reverse x

/-- Whitespace-run replacement leaves a whitespace-free list alone. -/
theorem replaceSpaceRuns_eq_self (x : List Char)
    (h : ∀ c ∈ x, jsIsSpace c = false) : replaceSpaceRuns x = x :=
  collapseRuns_eq_self jsIsSpace '-' x (chain'_of_all_false jsIsSpace x h)
    (fun c hc hp => absurd hp (by simp [h c hc]))

/-- Hyphen-run collapsing leaves a list with no adjacent hyphens alone. -/
theorem collapseHyphenRuns_eq_self (x : List Char) (h : NoAdjHyphens x) :
    collapseHyphenRuns x = x :=
  collapseRuns_eq_self (fun c => c == '-') '-' x
    (List.Chain'.imp (fun a b hab => by
      rcases hab with hab | hab
      · exact Or.inl (by simpa using hab)
      · exact Or.inr (by simpa using hab)) h)
    (fun c _ hp => by simpa using hp)

/-- The ASCII case mapping preserves the no-adjacent-hyphens property. -/
theorem noAdjHyphens_map_asciiToLower (x : List Char) (h : NoAdjHyphens x) :
    NoAdjHyphens (x.map asciiToLower) := by
  rw [NoAdjHyphens, List.chain'_map]
  refine List.Chain'.imp ?_ h
  intro a b hab
  rcases hab with hab | hab
  · exact Or.inl (fun hc => hab (asciiToLower_hyphen_iff a |>.mp hc))
  · exact Or.inr (fun hc => hab (asciiToLower_hyphen_iff b |>.mp hc))

/-- The ASCII case mapping preserves a hyphen-free head. -/
theorem head?_map_asciiToLower_ne (x : List Char) (h : x.head? ≠ some '-') :
    (x.map asciiToLower).head? ≠ some '-' := by
  rw [List.head?_map]
  intro hc
  cases hx : x.head? with
  | none => rw [hx] at hc; simp at hc
  | some a =>
    rw [hx] at hc
    simp only [Option.map_some', Option.some.injEq] at hc
    exact h (by rw [hx, asciiToLower_hyphen_iff a |>.mp hc])

/-- The ASCII case mapping preserves a hyphen-free last element. -/
theorem getLast?_map_asciiToLower_ne (x : List Char)
    (h : x.getLast? ≠ some '-') :
    (x.map asciiToLower).getLast? ≠ some '-' := by
  rw [List.getLast?_map]
  intro hc
  cases hx : x.getLast? with
  | none => rw [hx] at hc; simp at hc
  | some a =>
    rw [hx] at hc
    simp only [Option.map_some', Option.some.injEq] at hc
    exact h (by rw [hx, asciiToLower_hyphen_iff a |>.mp hc])

/-- With ASCII-faithful Unicode maps, the sanitizer slug stage is the
identity on an already-lowercase slug. -/
theorem slugCoreWith_eq_self (lower : Char → Char) (nf : Char → List Char)
    (hlower : ∀ c : Char, c.toNat ≤ 127 → lower c = asciiToLower c)
    (hnf : ∀ c : Char, c.toNat ≤ 127 → nf c = [c]) (x : List Char)
    (h1 : ∀ c ∈ x, slugCharAmended c = true) (h2 : NoAdjHyphens x)
    (h3 : x.head? ≠ some '-') (h4 : x.getLast? ≠ some '-') :
    slugCoreWith lower nf x = x := by
  unfold slugCoreWith preHyphenStageWith
  rw [pathParseName_eq_self x (fun c hc => (slugCharAmended_not_sep c (h1 c hc)).1)
    (fun c hc => (slugCharAmended_not_sep c (h1 c hc)).2)]
  rw [map_lower_amended_eq_self lower hlower x h1]
  rw [flatMap_eq_self_of nf x (fun c hc => hnf c (slugCharAmended_ascii c (h1 c hc)))]
  rw [List.filter_eq_self.mpr (fun c hc => keepChar_of_slugCharAmended c (h1 c hc))]
  rw [jsTrim_eq_self x (fun c hc => slugCharAmended_not_space c (h1 c hc))]
  rw [replaceSpaceRuns_eq_self x (fun c hc => slugCharAmended_not_space c (h1 c hc))]
  rw [collapseHyphenRuns_eq_self x h2]
  exact stripEdgeHyphens_eq_self x h3 h4

/-- With ASCII-faithful Unicode maps, the sanitizer slug stage lowercases
a produced slug: re-sanitizing acts as the ASCII case mapping on it. -/
theorem slugCoreWith_map_lower (lower : Char → Char) (nf : Char → List Char)
    (hlower : ∀ c : Char, c.toNat ≤ 127 → lower c = asciiToLower c)
    (hnf : ∀ c : Char, c.toNat ≤ 127 → nf c = [c]) (x : List Char)
    (h1 : ∀ c ∈ x, slugCharWide c = true) (h2 : NoAdjHyphens x)
    (h3 : x.head? ≠ some '-') (h4 : x.getLast? ≠ some '-') :
    slugCoreWith lower nf x = x.map asciiToLower := by
  have hmapped : ∀ c ∈ x.map asciiToLower, slugCharAmended c = true := by
    intro c hc
    rw [List.mem_map] at hc
    obtain ⟨a, ha, rfl⟩ := hc
    exact asciiToLower_amended_of_wide a (h1 a ha)
  unfold slugCoreWith preHyphenStageWith
  rw [pathParseName_eq_self x (fun c hc => (slugCharWide_not_sep c (h1 c hc)).1)
    (fun c hc => (slugCharWide_not_sep c (h1 c hc)).2)]
  rw [List.map_congr_left (fun c hc => hlower c (slugCharWide_ascii c (h1 c hc)))]
  rw [flatMap_eq_self_of nf (x.map asciiToLower)
    (fun c hc => hnf c (slugCharAmended_ascii c (hmapped c hc)))]
  rw [List.filter_eq_self.mpr
    (fun c hc => keepChar_of_slugCharAmended c (hmapped c hc))]
  rw [jsTrim_eq_self (x.map asciiToLower)
    (fun c hc => slugCharAmended_not_space c (hmapped c hc))]
  rw [replaceSpaceRuns_eq_self (x.map asciiToLower)
    (fun c hc => slugCharAmended_not_space c (hmapped c hc))]
  rw [collapseHyphenRuns_eq_self (x.map asciiToLower)
    (noAdjHyphens_map_asciiToLower x h2)]
  exact stripEdgeHyphens_eq_self (x.map asciiToLower)
    (head?_map_asciiToLower_ne x h3) (getLast?_map_asciiToLower_ne x h4)

/-- Stripping the appended extension recovers the slug. -/
theorem stripMdxSuffix_append (x : List Char) :
    stripMdxSuffix (x ++ mdxExt) = x := by
  unfold stripMdxSuffix
  have hlen : (x ++ mdxExt).length - 4 = x.length := by
    simp [mdxExt]
  rw [hlen, List.drop_left, if_pos rfl, List.take_left]

/-! ## Theorems: filename sanitizer shape (C4) -/

/-- Appending the extension to a well-formed slug yields the amended
shape. -/
theorem amendedShape_append (x : List Char)
    (h1 : ∀ c ∈ x, slugCharWide c = true) (h2 : x.head? ≠ some '-')
    (h3 : x.getLast? ≠ some '-') : amendedShape (x ++ mdxExt) = true := by
  have hlen : (x ++ mdxExt).length - 4 = x.length := by
    simp [mdxExt]
  unfold amendedShape
  rw [hlen, List.drop_left, List.take_left]
  simp only [Bool.and_eq_true, beq_self_eq_true, true_and, List.all_eq_true,
    bne_iff_ne, ne_eq]
  exact ⟨⟨h1, h2⟩, h3⟩

/-- C4 counterexample: the input `a_b.txt` sanitizes to `a_b.mdx`, whose
slug contains an underscore and so does not match the claimed
`[a-z0-9-]` alphabet. -/
theorem claim_C4_counterexample :
    claimedShape (generateSafeFilename ("a_b.txt".toList)) = false := by decide

/-- Uppercase letters are reachable too: NFKD runs after the lowercasing
step and decomposes U+1D400 MATHEMATICAL BOLD CAPITAL A (which has no
case mapping) to a plain `A`, kept by `\w`, so the amended alphabet must
admit both cases. -/
theorem generateSafeFilename_uppercase_example :
    generateSafeFilename [Char.ofNat 119808] = "A.mdx".toList := by decide

set_option maxHeartbeats 1600000 in
/-- C4 amended: whatever `toLowerCase`'s case mapping and `NFKD`'s
decomposition do, the sanitizer returns a slug of ASCII letters (either
case), digits, underscores and hyphens followed by `.mdx`, with no
leading or trailing hyphen in the slug: every slug character passed the
`\w`, `\s`, `-` filter and is not whitespace, and the hyphen-collapse
and edge-strip stages run last.  The program's sanitizer is the instance
at the true Unicode tables. -/
theorem claim_C4_sanitizer_shape (lower : Char → Char)
    (nf : Char → List Char) (s : List Char) :
    amendedShape (generateSafeFilenameWith lower nf s) = true := by
  have hp := slugCoreWith_no_hyphen_runs lower nf s
  exact amendedShape_append (slugCoreWith lower nf s)
    (mem_slugCoreWith lower nf s) hp.2.1 hp.2.2

/-! ## Theorems: sanitizer idempotence (C8) -/

/-- C8 counterexample: sanitizing U+1D400 gives `A.mdx` (NFKD decomposes
it to `A` after the lowercasing step), but re-sanitizing the stripped
slug `A` lowercases it to `a.mdx`, so the sanitizer is not idempotent
modulo the extension. -/
theorem claim_C8_counterexample :
    generateSafeFilename (stripMdxSuffix
        (generateSafeFilename [Char.ofNat 119808]))
      ≠ generateSafeFilename [Char.ofNat 119808] := by decide

set_option maxHeartbeats 1600000 in
/-- C8 amended: re-sanitizing is stable from the second application on.
For ASCII-faithful Unicode maps (true of `toLowerCase` and `NFKD`: ASCII
characters have no compatibility decompositions and their case mapping
is `A`–`Z` → `a`–`z`), the first re-application lowercases the slug's
residual uppercase letters and every further application is the
identity; idempotence as originally claimed holds exactly when the first
slug is already lowercase. -/
theorem claim_C8_sanitizer_stabilizes (lower : Char → Char)
    (nf : Char → List Char)
    (hlower : ∀ c : Char, c.toNat ≤ 127 → lower c = asciiToLower c)
    (hnf : ∀ c : Char, c.toNat ≤ 127 → nf c = [c]) (s : List Char) :
    generateSafeFilenameWith lower nf (stripMdxSuffix
        (generateSafeFilenameWith lower nf (stripMdxSuffix
          (generateSafeFilenameWith lower nf s))))
      = generateSafeFilenameWith lower nf (stripMdxSuffix
          (generateSafeFilenameWith lower nf s)) := by
  have h1w := mem_slugCoreWith lower nf s
  have h1p := slugCoreWith_no_hyphen_runs lower nf s
  have hlow := slugCoreWith_map_lower lower nf hlower hnf
    (slugCoreWith lower nf s) h1w h1p.1 h1p.2.1 h1p.2.2
  have h2a : ∀ c ∈ (slugCoreWith lower nf s).map asciiToLower,
      slugCharAmended c = true := by
    intro c hc
    rw [List.mem_map] at hc
    obtain ⟨a, ha, rfl⟩ := hc
    exact asciiToLower_amended_of_wide a (h1w a ha)
  have h2p := slugCoreWith_no_hyphen_runs lower nf (slugCoreWith lower nf s)
  rw [hlow] at h2p
  have hstep1 : generateSafeFilenameWith lower nf s
      = slugCoreWith lower nf s ++ mdxExt := rfl
  rw [hstep1, stripMdxSuffix_append]
  have hstep2 : generateSafeFilenameWith lower nf (slugCoreWith lower nf s)
      = (slugCoreWith lower nf s).map asciiToLower ++ mdxExt := by
    show slugCoreWith lower nf (slugCoreWith lower nf s) ++ mdxExt = _
    rw [hlow]
  rw [hstep2, stripMdxSuffix_append]
  show slugCoreWith lower nf ((slugCoreWith lower nf s).map asciiToLower)
      ++ mdxExt = _
  rw [slugCoreWith_eq_self lower nf hlower hnf
    ((slugCoreWith lower nf s).map asciiToLower) h2a h2p.1 h2p.2.1 h2p.2.2]

set_option maxHeartbeats 1600000 in
/-- Witness for C8: at the concrete fragment maps and the input U+1D400
(slug `A` after one pass, `a` from then on), the second re-application
is stable. -/
theorem claim_C8_sanitizer_stabilizes_witness :
    generateSafeFilenameWith asciiToLower nfkdFragment (stripMdxSuffix
        (generateSafeFilenameWith asciiToLower nfkdFragment (stripMdxSuffix
          (generateSafeFilenameWith asciiToLower nfkdFragment
            [Char.ofNat 119808]))))
      = generateSafeFilenameWith asciiToLower nfkdFragment (stripMdxSuffix
          (generateSafeFilenameWith asciiToLower nfkdFragment
            [Char.ofNat 119808])) :=
  claim_C8_sanitizer_stabilizes asciiToLower nfkdFragment
    (fun _ _ => rfl)
    (fun c hc => by
      unfold nfkdFragment
      rw [if_neg (by omega)])
    [Char.ofNat 119808]

end ContentGen

namespace ContentGen

/-! ## Theorems: generation client retry (C1) -/

/-- Retry loop from `attempt` with the first success at attempt `m`:
returns that success after `m - attempt + 1` calls. -/
theorem generateWithRetryGo_first_success (oracle : Nat → GenResult) :
    ∀ (fuel attempt m : Nat), attempt ≤ m → m < attempt + fuel →
    (∀ i, attempt ≤ i → i < m → attemptFails (oracle i) = true) →
    attemptFails (oracle m) = false →
    generateWithRetryGo oracle attempt fuel =
      (attemptOutcome (oracle m), m - attempt + 1) := by
  intro fuel
  induction fuel with
  | zero => intro attempt m h1 h2 _ _; omega
  | succ f ih =>
    intro attempt m h1 h2 hfail hsucc
    rcases Nat.eq_or_lt_of_le h1 with heq | hlt
    · subst heq
      rcases hout : attemptOutcome (oracle attempt) with e | t
      · exfalso
        have : attemptFails (oracle attempt) = true := by
          unfold attemptFails; rw [hout]
        rw [this] at hsucc; exact absurd hsucc (by simp)
      · simp [generateWithRetryGo, hout]
    · have hfa : attemptFails (oracle attempt) = true := hfail attempt le_rfl hlt
      rcases hout : attemptOutcome (oracle attempt) with e | t
      · have hf0 : f ≠ 0 := by omega
        have ihm := ih (attempt + 1) m (by omega) (by omega)
          (fun i hi1 hi2 => hfail i (by omega) hi2) hsucc
        simp only [generateWithRetryGo, hout, if_neg hf0, ihm]
        have harith : m - (attempt + 1) + 1 + 1 = m - attempt + 1 := by omega
        rw [harith]
      · exfalso
        unfold attemptFails at hfa
        rw [hout] at hfa
        exact Bool.false_ne_true hfa

/-- Retry loop from `attempt` with every attempt failing: propagates the
final attempt's error after exactly `fuel` calls. -/
theorem generateWithRetryGo_all_fail (oracle : Nat → GenResult) :
    ∀ (fuel attempt : Nat), 1 ≤ fuel →
    (∀ i, attempt ≤ i → i < attempt + fuel → attemptFails (oracle i) = true) →
    generateWithRetryGo oracle attempt fuel =
      (attemptOutcome (oracle (attempt + fuel - 1)), fuel) := by
  intro fuel
  induction fuel with
  | zero => intro attempt h1 _; omega
  | succ f ih =>
    intro attempt _ hfail
    have hfa : attemptFails (oracle attempt) = true :=
      hfail attempt le_rfl (by omega)
    rcases hout : attemptOutcome (oracle attempt) with e | t
    · by_cases hf0 : f = 0
      · subst hf0
        simp [generateWithRetryGo, hout]
      · have ihm := ih (attempt + 1) (by omega)
          (fun i hi1 hi2 => hfail i (by omega) (by omega))
        simp only [generateWithRetryGo, hout, if_neg hf0, ihm]
        have harith : attempt + 1 + f - 1 = attempt + (f + 1) - 1 := by omega
        rw [harith]
    · exfalso
      unfold attemptFails at hfa
      rw [hout] at hfa
      exact Bool.false_ne_true hfa

/-- Retry loop call count is bounded by the fuel. -/
theorem generateWithRetryGo_count_le (oracle : Nat → GenResult) :
    ∀ (fuel attempt : Nat), (generateWithRetryGo oracle attempt fuel).2 ≤ fuel := by
  intro fuel
  induction fuel with
  | zero => intro attempt; simp [generateWithRetryGo]
  | succ f ih =>
    intro attempt
    rcases hout : attemptOutcome (oracle attempt) with e | t
    · by_cases hf0 : f = 0
      · subst hf0; simp [generateWithRetryGo, hout]
      · simp only [generateWithRetryGo, hout, if_neg hf0]
        have := ih (attempt + 1)
        omega
    · simp [generateWithRetryGo, hout]

/-- C1: `generateWithRetry` makes at most `maxAttempts` upstream calls per
prompt.  If each of the first `m < maxAttempts` attempts fails (throws or
yields an empty result) and attempt `m + 1` succeeds, it returns that
success after exactly `m + 1` upstream calls; if every attempt fails, it
propagates the final error after exactly `maxAttempts` upstream calls and
returns no generated output. -/
theorem claim_C1_generateWithRetry :
    (∀ (oracle : Nat → GenResult) (m maxR : Nat), m < maxR →
      (∀ i, i < m → attemptFails (oracle i) = true) →
      attemptFails (oracle m) = false →
      generateWithRetry oracle maxR = (attemptOutcome (oracle m), m + 1)) ∧
    (∀ (oracle : Nat → GenResult) (maxR : Nat), 1 ≤ maxR →
      (∀ i, i < maxR → attemptFails (oracle i) = true) →
      generateWithRetry oracle maxR = (attemptOutcome (oracle (maxR - 1)), maxR)) ∧
    (∀ (oracle : Nat → GenResult) (maxR : Nat),
      (generateWithRetry oracle maxR).2 ≤ maxR) := by
  refine ⟨?_, ?_, ?_⟩
  · intro oracle m maxR hm hfail hsucc
    have h := generateWithRetryGo_first_success oracle maxR 0 m (Nat.zero_le m)
      (by omega) (fun i _ hi => hfail i hi) hsucc
    simpa [generateWithRetry] using h
  · intro oracle maxR h1 hfail
    have h := generateWithRetryGo_all_fail oracle maxR 0 h1
      (fun i _ hi => hfail i (by omega))
    simpa [generateWithRetry] using h
  · intro oracle maxR
    exact generateWithRetryGo_count_le oracle maxR 0

/-- Witness for C1: with a stub failing the first two attempts and
succeeding on the third, the default five-attempt client returns the
success after exactly three calls. -/
theorem claim_C1_generateWithRetry_witness :
    generateWithRetry (fun n => if n < 2 then GenResult.err "boom" else GenResult.ok "hi") 5
      = (Except.ok "hi", 3) := by
  have h := claim_C1_generateWithRetry.1
    (fun n => if n < 2 then GenResult.err "boom" else GenResult.ok "hi") 2 5
    (by decide) (by decide) (by decide)
  simpa [attemptOutcome] using h

/-! ## Theorems: credential rotator (C3) -/

/-- Rotator cursor after `n` calls equals `n` modulo the key count. -/
theorem rotatorState_eq_mod (keys : List String) (hk : keys ≠ []) (n : Nat) :
    rotatorState keys n = n % keys.length := by
  induction n with
  | zero => simp [rotatorState]
  | succ n ih =>
    have hlen : 0 < keys.length := List.length_pos.mpr hk
    simp only [rotatorState, getNextGemini, ih, Nat.mod_add_mod]

/-- C3: with `k ≥ 1` credentials, the `n`-th call to the rotator returns
`credentials[(n-1) mod k]`, each call advances the cursor exactly once
modulo `k`, and the cursor always stays in `[0, k)`. -/
theorem claim_C3_rotator (keys : List String) (n : Nat) (hk : keys ≠ []) (hn : 1 ≤ n) :
    (getNextGemini keys (rotatorState keys (n - 1))).1
        = keys.getD ((n - 1) % keys.length) "" ∧
    rotatorState keys n = (rotatorState keys (n - 1) + 1) % keys.length ∧
    (∀ m, rotatorState keys m < keys.length) := by
  have hlen : 0 < keys.length := List.length_pos.mpr hk
  refine ⟨?_, ?_, ?_⟩
  · simp [getNextGemini, rotatorState_eq_mod keys hk]
  · have hsub : n - 1 + 1 = n := by omega
    conv_lhs => rw [← hsub]
    simp [rotatorState, getNextGemini]
  · intro m
    rw [rotatorState_eq_mod keys hk]
    exact Nat.mod_lt m hlen

/-- Witness for C3: with three credentials, the fifth call returns the
credential at index `4 mod 3 = 1`. -/
theorem claim_C3_rotator_witness :
    (getNextGemini ["a", "b", "c"] (rotatorState ["a", "b", "c"] 4)).1 = "b" := by
  have h := (claim_C3_rotator ["a", "b", "c"] 5 (by simp) (by omega)).1
  simpa using h

/-! ## Theorems: per-item failure handling (C5) -/

/-- C5 counterexample: when the upstream status update is the failing
step, a failure `Outcome` is recorded but the generated file has already
been written — content was persisted despite the per-item failure. -/
theorem claim_C5_counterexample :
    ((processFile ⟨"id1", "a.txt".toList, "Pending", "u"⟩
        ⟨Except.ok "p", fun _ => GenResult.ok "content", Except.ok (),
          Except.error "put failed"⟩).1.success = false) ∧
      (processFile ⟨"id1", "a.txt".toList, "Pending", "u"⟩
        ⟨Except.ok "p", fun _ => GenResult.ok "content", Except.ok (),
          Except.error "put failed"⟩).2.written ≠ [] := by
  constructor
  · decide
  · decide

/-- C5 amended: when any step of `processFile` fails, a failure `Outcome`
carrying the error detail is recorded and no status change is reported
upstream; no content is persisted either, unless the failing step is the
upstream status report itself, in which case the already-performed file
write remains in place.  The failure is returned as a value, so it cannot
abort the batch or other items. -/
theorem claim_C5_item_failure (file : WorkItem) (w : ItemWorld)
    (h : (processFile file w).1.success = false) :
    (processFile file w).1.error.isSome = true ∧
      (processFile file w).2.statusUpdates = [] ∧
      ((processFile file w).2.written = [] ∨
        ∃ e, w.putResult = Except.error e) := by
  rcases hpf : w.promptFetch with e | p
  · simp [processFile, hpf]
  · rcases hg : (generateWithRetry w.gen MAX_RETRIES).1 with e | t
    · simp [processFile, hpf, hg]
    · rcases hw : w.writeResult with e | u
      · simp [processFile, hpf, hg, hw]
      · rcases hp : w.putResult with e | u
        · refine ⟨?_, ?_, Or.inr ⟨e, ?_⟩⟩ <;>
            simp [processFile, hpf, hg, hw, hp]
        · exfalso
          simp [processFile, hpf, hg, hw, hp] at h

/-- Witness for C5: a prompt-fetch failure records a failure outcome with
the error detail, no status update, and no file written. -/
theorem claim_C5_item_failure_witness :
    (processFile ⟨"id2", "b.txt".toList, "Pending", "u"⟩
        ⟨Except.error "fetch failed", fun _ => GenResult.ok "x", Except.ok (),
          Except.ok ()⟩).1.error.isSome = true ∧
      (processFile ⟨"id2", "b.txt".toList, "Pending", "u"⟩
        ⟨Except.error "fetch failed", fun _ => GenResult.ok "x", Except.ok (),
          Except.ok ()⟩).2.statusUpdates = [] ∧
      ((processFile ⟨"id2", "b.txt".toList, "Pending", "u"⟩
        ⟨Except.error "fetch failed", fun _ => GenResult.ok "x", Except.ok (),
          Except.ok ()⟩).2.written = [] ∨
        ∃ e, (⟨Except.error "fetch failed", fun _ => GenResult.ok "x",
          Except.ok (), Except.ok ()⟩ : ItemWorld).putResult
            = Except.error e) :=
  claim_C5_item_failure ⟨"id2", "b.txt".toList, "Pending", "u"⟩
    ⟨Except.error "fetch failed", fun _ => GenResult.ok "x", Except.ok (),
      Except.ok ()⟩ (by decide)

/-! ## Theorems: notification failure (C6) -/

/-- C6 failing input: a batch whose single item processes successfully,
with email configured and the SMTP send failing.  The active `sendEmail`
has no try/catch around `sendMail`, so the report-email failure escapes
into `run`'s top-level catch and the process exits 1 — the notification
failure does change the exit code, contradicting the claim. -/
theorem claim_C6_notification_failure_fatal :
    (runModel ⟨Except.ok [⟨"id1", "a.txt".toList, "Pending", "u"⟩],
        fun _ => ⟨Except.ok "p", fun _ => GenResult.ok "content",
          Except.ok (), Except.ok ()⟩,
        true, Except.error "smtp down"⟩).exitCode = 1 ∧
      (runModel ⟨Except.ok [⟨"id1", "a.txt".toList, "Pending", "u"⟩],
        fun _ => ⟨Except.ok "p", fun _ => GenResult.ok "content",
          Except.ok (), Except.ok ()⟩,
        true, Except.error "smtp down"⟩).outcomes.all
          (fun o => o.success) = true := by
  constructor
  · decide
  · decide

/-! ## Theorems: missing credentials fail fast (C7) -/

/-- C7: when the startup credential filter leaves no credential, the
module-level throw aborts the process before `run` starts: exit code 1,
no batch fetch, no generation call, no write, no status update, no item
outcome, no email. -/
theorem claim_C7_no_credentials_fail_fast (env : List (String × String))
    (rw : RunWorld) (h : buildApiKeys env = []) :
    mainModel env rw = ⟨1, [], [], [], 0, 0, 0⟩ := by
  unfold mainModel
  rw [h]
  rfl

/-- Witness for C7: an environment with no `GEMINI_API_KEY` entry aborts
at startup with nothing performed. -/
theorem claim_C7_no_credentials_fail_fast_witness :
    mainModel [("HOME", "/root")]
      ⟨Except.ok [], fun _ => ⟨Except.ok "", fun _ => GenResult.ok "",
        Except.ok (), Except.ok ()⟩, false, Except.ok ()⟩
      = ⟨1, [], [], [], 0, 0, 0⟩ :=
  claim_C7_no_credentials_fail_fast [("HOME", "/root")]
    ⟨Except.ok [], fun _ => ⟨Except.ok "", fun _ => GenResult.ok "",
      Except.ok (), Except.ok ()⟩, false, Except.ok ()⟩ (by decide)

/-! ## Theorems: zero pending items (C9) -/

/-- C9: when the fetched batch has no pending item, the run performs the
single batch fetch and nothing else: no outcome, no generation call, no
file written, no status update, no report email, and exit code 0. -/
theorem claim_C9_zero_pending (rw : RunWorld) (files : List WorkItem)
    (hfetch : rw.fetchBatch = Except.ok files)
    (hpending : files.filter (fun f => f.status = "Pending") = []) :
    runModel rw = ⟨0, [], [], [], 0, 1, 0⟩ := by
  unfold runModel
  rw [hfetch]
  simp [hpending]

/-- Witness for C9: a batch whose only file is already processed yields
the silent zero-exit run. -/
theorem claim_C9_zero_pending_witness :
    runModel ⟨Except.ok [⟨"id3", "c.txt".toList, "AlreadyCopy", "u"⟩],
        fun _ => ⟨Except.ok "", fun _ => GenResult.ok "", Except.ok (),
          Except.ok ()⟩, true, Except.ok ()⟩
      = ⟨0, [], [], [], 0, 1, 0⟩ :=
  claim_C9_zero_pending
    ⟨Except.ok [⟨"id3", "c.txt".toList, "AlreadyCopy", "u"⟩],
      fun _ => ⟨Except.ok "", fun _ => GenResult.ok "", Except.ok (),
        Except.ok ()⟩, true, Except.ok ()⟩
    [⟨"id3", "c.txt".toList, "AlreadyCopy", "u"⟩] rfl (by decide)

/-! ## Theorems: outcome naming (C10) -/

/-- C10: a successful `Outcome` is named by the sanitized slug with the
fixed extension, while a failed `Outcome` is named by the raw
`originalFilename`, so the batch summary lists successes by slug and
failures by original name. -/
theorem claim_C10_outcome_name (file : WorkItem) (w : ItemWorld) :
    ((processFile file w).1.success = true →
      (processFile file w).1.name = generateSafeFilename file.originalFilename) ∧
    ((processFile file w).1.success = false →
      (processFile file w).1.name = file.originalFilename) := by
  rcases hpf : w.promptFetch with e | p
  · simp [processFile, hpf]
  · rcases hg : (generateWithRetry w.gen MAX_RETRIES).1 with e | t
    · simp [processFile, hpf, hg]
    · rcases hw : w.writeResult with e | u
      · simp [processFile, hpf, hg, hw]
      · rcases hp : w.putResult with e | u
        · simp [processFile, hpf, hg, hw, hp]
        · simp [processFile, hpf, hg, hw, hp]

/-- Witness for C10: a fully successful item is reported under its
sanitized slug. -/
theorem claim_C10_outcome_name_witness :
    (processFile ⟨"id4", "My Doc.txt".toList, "Pending", "u"⟩
        ⟨Except.ok "p", fun _ => GenResult.ok "content", Except.ok (),
          Except.ok ()⟩).1.name
      = generateSafeFilename ("My Doc.txt".toList) :=
  (claim_C10_outcome_name ⟨"id4", "My Doc.txt".toList, "Pending", "u"⟩
    ⟨Except.ok "p", fun _ => GenResult.ok "content", Except.ok (),
      Except.ok ()⟩).1 (by decide)

/-! ## Theorems: queue processes every item exactly once (C2) -/

/-- Busy multiset of a cons. -/
theorem busyMultiset_cons (st : WStatus) (l : List WStatus) :
    busyMultiset (st :: l) = optIndexMS (busyIndex st) + busyMultiset l := by
  unfold busyMultiset
  rw [List.filterMap_cons]
  cases h : busyIndex st with
  | none => simp [optIndexMS]
  | some i =>
    simp only [optIndexMS]
    rw [← Multiset.cons_coe]
    rfl

/-- Busy multiset of an append. -/
theorem busyMultiset_append (l1 l2 : List WStatus) :
    busyMultiset (l1 ++ l2) = busyMultiset l1 + busyMultiset l2 := by
  unfold busyMultiset
  rw [List.filterMap_append]
  exact (Multiset.coe_add _ _).symm

/-- Updating one worker exchanges its contribution in the busy multiset. -/
theorem busyMultiset_set (ws : List WStatus) (w : Nat) (a b : WStatus)
    (h : ws[w]? = some a) :
    busyMultiset (ws.set w b) + optIndexMS (busyIndex a)
      = busyMultiset ws + optIndexMS (busyIndex b) := by
  obtain ⟨hlt, hget⟩ := List.getElem?_eq_some.mp h
  have hdecomp : ws = ws.take w ++ a :: ws.drop (w + 1) := by
    conv_lhs => rw [← List.take_append_drop w ws]
    rw [List.drop_eq_getElem_cons hlt, hget]
  have hset : ws.set w b = ws.take w ++ b :: ws.drop (w + 1) :=
    List.set_eq_take_cons_drop b hlt
  rw [hset]
  conv_rhs => rw [hdecomp]
  rw [busyMultiset_append, busyMultiset_append, busyMultiset_cons,
    busyMultiset_cons]
  abel

/-- All-ready worker lists hold no index. -/
theorem busyMultiset_replicate_ready (W : Nat) :
    busyMultiset (List.replicate W WStatus.ready) = 0 := by
  induction W with
  | zero => rfl
  | succ n ih =>
    rw [List.replicate_succ, busyMultiset_cons, ih]
    rfl

/-- All-done worker lists hold no index. -/
theorem busyMultiset_all_done (l : List WStatus)
    (h : ∀ st ∈ l, st = WStatus.done) : busyMultiset l = 0 := by
  induction l with
  | nil => rfl
  | cons st t ih =>
    rw [busyMultiset_cons, h st (List.mem_cons_self _ _),
      ih (fun x hx => h x (List.mem_cons_of_mem _ hx))]
    rfl

/-- Every step of the queue preserves the invariant. -/
theorem qInv_step (N W : Nat) (s t : QState) (hstep : QStep N s t)
    (hinv : QInv N W s) : QInv N W t := by
  obtain ⟨h1, h2, h3, h4⟩ := hinv
  cases hstep with
  | claim w hw hidx =>
    refine ⟨by show s.index + 1 ≤ N; omega, ?_, ?_,
      by rw [List.length_set]; exact h4⟩
    · have hms := busyMultiset_set s.workers w WStatus.ready
        (WStatus.busy s.index) hw
      simp only [busyIndex, optIndexMS, add_zero] at hms
      show (s.results : Multiset Nat)
          + busyMultiset (s.workers.set w (WStatus.busy s.index))
        = (List.range (s.index + 1) : Multiset Nat)
      rw [hms]
      rw [List.range_succ, ← Multiset.coe_add, ← add_assoc, h2,
        Multiset.coe_singleton]
    · intro hdone
      obtain ⟨st, hst, hst2⟩ := hdone
      rcases List.mem_or_eq_of_mem_set hst with hmem | heq
      · have := h3 ⟨st, hmem, hst2⟩
        show N ≤ s.index + 1
        omega
      · rw [heq] at hst2
        cases hst2
  | finish w hw hidx =>
    refine ⟨h1, ?_, fun _ => hidx, by rw [List.length_set]; exact h4⟩
    have hms := busyMultiset_set s.workers w WStatus.ready WStatus.done hw
    simp only [busyIndex, optIndexMS, add_zero] at hms
    show (s.results : Multiset Nat)
        + busyMultiset (s.workers.set w WStatus.done)
      = (List.range s.index : Multiset Nat)
    rw [hms]
    exact h2
  | complete w i hw =>
    refine ⟨h1, ?_, ?_, by rw [List.length_set]; exact h4⟩
    · have hms := busyMultiset_set s.workers w (WStatus.busy i)
        WStatus.ready hw
      simp only [busyIndex, optIndexMS, add_zero] at hms
      show (↑(s.results ++ [i]) : Multiset Nat)
          + busyMultiset (s.workers.set w WStatus.ready)
        = (List.range s.index : Multiset Nat)
      rw [← Multiset.coe_add]
      rw [Multiset.coe_singleton]
      calc (s.results : Multiset Nat) + {i}
            + busyMultiset (s.workers.set w WStatus.ready)
          = (s.results : Multiset Nat)
            + (busyMultiset (s.workers.set w WStatus.ready) + {i}) := by abel
        _ = (s.results : Multiset Nat) + busyMultiset s.workers := by rw [hms]
        _ = (List.range s.index : Multiset Nat) := h2
    · intro hdone
      obtain ⟨st, hst, hst2⟩ := hdone
      rcases List.mem_or_eq_of_mem_set hst with hmem | heq
      · exact h3 ⟨st, hmem, hst2⟩
      · rw [heq] at hst2
        cases hst2

/-- The invariant holds in every reachable state. -/
theorem qInv_reachable (N W : Nat) (s : QState)
    (h : Relation.ReflTransGen (QStep N) (qInit W) s) : QInv N W s := by
  induction h with
  | refl =>
    refine ⟨Nat.zero_le N, ?_, ?_, List.length_replicate W _⟩
    · show (([] : List Nat) : Multiset Nat)
          + busyMultiset (List.replicate W WStatus.ready)
        = (List.range 0 : Multiset Nat)
      rw [busyMultiset_replicate_ready]
      rfl
    · intro hdone
      obtain ⟨st, hst, hst2⟩ := hdone
      have := List.eq_of_mem_replicate hst
      rw [this] at hst2
      cases hst2
  | tail _ hstep ih => exact qInv_step N W _ _ hstep ih

/-- C2: for `N` items and any positive worker count, every complete run of
the queue — a reachable state in which all workers have terminated — has
pushed exactly `N` results, and the claimed item indices among them are
exactly `0, …, N-1`, each exactly once: no item is skipped and none is
processed twice. -/
theorem claim_C2_runQueue (N W : Nat) (hW : 1 ≤ W) (s : QState)
    (hreach : Relation.ReflTransGen (QStep N) (qInit W) s)
    (hterm : ∀ st ∈ s.workers, st = WStatus.done) :
    s.results.Perm (List.range N) := by
  have hinv := qInv_reachable N W s hreach
  obtain ⟨h1, h2, h3, h4⟩ := hinv
  have hbusy : busyMultiset s.workers = 0 := busyMultiset_all_done _ hterm
  have hne : s.workers ≠ [] := by
    intro h0
    rw [h0] at h4
    simp at h4
    omega
  obtain ⟨st, hst⟩ := List.exists_mem_of_ne_nil s.workers hne
  have hidx : s.index = N := by
    have := h3 ⟨st, hst, hterm st hst⟩
    omega
  rw [hbusy, add_zero, hidx] at h2
  exact Multiset.coe_eq_coe.mp h2

/-- Witness for C2: one worker and one item; the worker claims index 0,
completes it, then terminates, and the results are exactly the one item. -/
theorem claim_C2_runQueue_witness :
    ([0] : List Nat).Perm (List.range 1) := by
  refine claim_C2_runQueue 1 1 (le_refl 1) ⟨1, [0], [WStatus.done]⟩ ?_ ?_
  · exact Relation.ReflTransGen.head (QStep.claim (qInit 1) 0 rfl (by decide))
      (Relation.ReflTransGen.head (QStep.complete _ 0 0 rfl)
        (Relation.ReflTransGen.single (QStep.finish _ 0 rfl (by decide))))
  · intro st hst
    exact List.mem_singleton.mp hst

end ContentGen
